import Mathlib

/-!
Verification development for the `build-ai-context` summary tool.

The development shallowly embeds the core of the repository:

* `ExclusionMatcher` (pattern compilation and `shouldExclude`), including a
  faithful model of the `glob-to-regexp` translation (version 0.4.1, with
  `globstar: true`, `extended: true`, flags `"i"`) and of the ECMAScript
  `RegExp` fragment those compiled patterns use.  JavaScript regexes are
  modelled by an abstract syntax tree `RE` together with a positions-based
  matching function; `new RegExp` is modelled by a parser that rejects
  exactly the malformed inputs (unterminated classes, unbalanced groups,
  dangling quantifiers) that make the JavaScript constructor throw.
  Every regex in this code is compiled with the `"i"` flag, so matching is
  case-insensitive throughout (case folding is modelled with `Char.toLower`,
  which agrees with ECMAScript canonicalisation on ASCII, the alphabet of
  all paths and patterns considered here).
* `FileTracker` (copy mode with hash-based duplicate detection and
  collision renaming, and merge mode with dash-separator header blocks).
* `StructureSummarizer` (the recursive structure walk and the compact JSON
  serializer).

Paths are modelled as lists of `/`-separated segments where directory
traversal is concerned, and as plain strings where the source manipulates
them as strings.
-/

namespace BuildAiContext

/-- Character-class item of a JavaScript regex: a single character, a
character range, or one of the predefined classes `\d \D \w \W \s \S`. -/
inductive ClsItem where
  | single (c : Char)
  | range (lo hi : Char)
  | digit
  | word
  | space
  deriving DecidableEq, Repr

/-- Abstract syntax of the ECMAScript regular-expression fragment used by
the compiled patterns: literals, `.`, character classes, grouping,
alternation, Kleene star/plus/optional, and the anchors `^` and `$`. -/
inductive RE where
  | eps
  | bol
  | eol
  | ch (c : Char)
  | anyC
  | cls (neg : Bool) (items : List ClsItem)
  | seq (a b : RE)
  | alt (a b : RE)
  | star (a : RE)
  deriving DecidableEq, Repr

/-- Case-insensitive character comparison: the model of matching a literal
pattern character under the `i` flag. -/
def ciCharEq (a b : Char) : Bool :=
  a.toLower == b.toLower

/-- Digit test for the `\d` class. -/
def isDigitChar (c : Char) : Bool :=
  '0' ≤ c && c ≤ '9'

/-- Word-character test for the `\w` class. -/
def isWordChar (c : Char) : Bool :=
  ('a' ≤ c.toLower && c.toLower ≤ 'z') || isDigitChar c || c == '_'

/-- Whitespace test for the `\s` class (the common ASCII members). -/
def isSpaceChar (c : Char) : Bool :=
  c == ' ' || c == '\t' || c == '\n' || c == '\r' || c == '\x0b' || c == '\x0c'

/-- Whether one class item matches a character (case-insensitively,
modelling the `i` flag). -/
def clsItemMatch (c : Char) : ClsItem → Bool
  | .single d => ciCharEq d c
  | .range lo hi => (lo ≤ c && c ≤ hi) || (lo ≤ c.toLower && c.toLower ≤ hi)
      || (lo ≤ c.toUpper && c.toUpper ≤ hi)
  | .digit => isDigitChar c
  | .word => isWordChar c
  | .space => isSpaceChar c

/-- Whether a character class (possibly negated) matches a character. -/
def clsMatch (neg : Bool) (items : List ClsItem) (c : Char) : Bool :=
  xor neg (items.any (clsItemMatch c))

/-- Line terminators, which `.` does not match in JavaScript. -/
def isLineTerm (c : Char) : Bool :=
  c == '\n' || c == '\r' || c == '\u2028' || c == '\u2029'

/-- One saturation step for the Kleene-star closure: extend a set of
reachable positions by one application of the body matcher. -/
def satStep (f : Nat → List Nat) (acc : List Nat) : List Nat :=
  (acc ++ acc.flatMap f).dedup

/-- Fuelled saturation: iterating `satStep` enough times (fuel exceeding
the number of distinct positions) yields all positions reachable by
repeating the star body. -/
def saturate (f : Nat → List Nat) : Nat → List Nat → List Nat
  | 0, acc => acc
  | fuel + 1, acc => saturate f fuel (satStep f acc)

/-- All end positions reachable by matching the regex against `s` starting
at position `i`.  This is the semantics of the embedded regex fragment:
`bol`/`eol` are position assertions, `ch`/`anyC`/`cls` consume one
character, `seq`/`alt`/`star` compose. -/
def positions (s : List Char) : RE → Nat → List Nat
  | .eps, i => [i]
  | .bol, i => if i = 0 then [i] else []
  | .eol, i => if i = s.length then [i] else []
  | .ch c, i =>
      match s[i]? with
      | some d => if ciCharEq c d then [i + 1] else []
      | none => []
  | .anyC, i =>
      match s[i]? with
      | some d => if isLineTerm d then [] else [i + 1]
      | none => []
  | .cls neg items, i =>
      match s[i]? with
      | some d => if clsMatch neg items d then [i + 1] else []
      | none => []
  | .seq a b, i => (positions s a i).flatMap (fun j => positions s b j)
  | .alt a b, i => positions s a i ++ positions s b i
  | .star a, i => saturate (fun j => positions s a j) (s.length + 1) [i]

/-- The model of JavaScript `RegExp.prototype.test` (no `g` flag): the
regex matches somewhere in the string, i.e. a match may start at any
position. -/
def reTest (re : RE) (s : List Char) : Bool :=
  (List.range (s.length + 1)).any (fun i => !(positions s re i).isEmpty)

/-- Atom following a backslash escape (outside a character class). `none`
models a `SyntaxError` (backreferences and other escapes outside the
fragment). -/
def parseEscAtom : List Char → Option (RE × List Char)
  | [] => none
  | c :: rest =>
    if c = 'd' then some (.cls false [.digit], rest)
    else if c = 'D' then some (.cls true [.digit], rest)
    else if c = 'w' then some (.cls false [.word], rest)
    else if c = 'W' then some (.cls true [.word], rest)
    else if c = 's' then some (.cls false [.space], rest)
    else if c = 'S' then some (.cls true [.space], rest)
    else if c = 'n' then some (.ch '\n', rest)
    else if c = 't' then some (.ch '\t', rest)
    else if c = 'r' then some (.ch '\r', rest)
    else if c = 'f' then some (.ch '\x0c', rest)
    else if c = 'v' then some (.ch '\x0b', rest)
    else if c = '0' then some (.ch '\x00', rest)
    else if c.isAlphanum then none
    else some (.ch c, rest)

/-- Single unit inside a character class, after a backslash. -/
def parseClsEsc : List Char → Option (ClsItem × List Char)
  | [] => none
  | c :: rest =>
    if c = 'd' then some (.digit, rest)
    else if c = 'w' then some (.word, rest)
    else if c = 's' then some (.space, rest)
    else if c = 'n' then some (.single '\n', rest)
    else if c = 't' then some (.single '\t', rest)
    else if c = 'r' then some (.single '\r', rest)
    else if c = 'f' then some (.single '\x0c', rest)
    else if c = 'v' then some (.single '\x0b', rest)
    else if c = '0' then some (.single '\x00', rest)
    else if c.isAlphanum then none
    else some (.single c, rest)

/-- One unit of a character class: a raw or escaped character/set. -/
def parseClsOne : List Char → Option (ClsItem × List Char)
  | [] => none
  | '\\' :: rest => parseClsEsc rest
  | c :: rest => some (.single c, rest)

/-- Items of a character class up to the closing `]`; `none` models the
`SyntaxError` raised for an unterminated class. -/
def parseClsItems : Nat → List Char → Option (List ClsItem × List Char)
  | _, ']' :: rest => some ([], rest)
  | 0, _ => none
  | _ + 1, [] => none
  | fuel + 1, cs => do
    let (item, rest) ← parseClsOne cs
    match item, rest with
    | .single c1, '-' :: d :: rest2 =>
      if d = ']' then
        -- trailing hyphen is a literal member
        let (items, rest3) ← parseClsItems fuel ('-' :: d :: rest2)
        some (ClsItem.single c1 :: items, rest3)
      else do
        let (item2, rest3) ← parseClsOne (d :: rest2)
        match item2 with
        | .single c2 =>
          let (items, rest4) ← parseClsItems fuel rest3
          some (ClsItem.range c1 c2 :: items, rest4)
        | _ => none
    | _, _ => do
      let (items, rest3) ← parseClsItems fuel rest
      some (item :: items, rest3)

/-- Quantifier characters. -/
def isQuant (c : Char) : Bool :=
  c = '*' || c = '+' || c = '?'

/-- After a quantifier, a single `?` is the laziness modifier (laziness is
irrelevant to `test`). -/
def dropLazy : List Char → List Char
  | '?' :: rest => rest
  | cs => cs

mutual

/-- Disjunction: alternatives separated by `|`; stops before an unmatched
`)` or at the end of input. -/
def parseAlt : Nat → List Char → Option (RE × List Char)
  | 0, _ => none
  | fuel + 1, cs => do
    let (a, rest) ← parseSeq fuel .eps cs
    match rest with
    | '|' :: r => do
      let (b, rest2) ← parseAlt fuel r
      some (RE.alt a b, rest2)
    | _ => some (a, rest)

/-- Sequence of assertions and quantified atoms, accumulated left to
right; stops at `|`, `)` or the end of input.  `none` models the
`SyntaxError`s of the JavaScript constructor: a dangling quantifier, a
quantified assertion, an unbalanced group or an unterminated class. -/
def parseSeq : Nat → RE → List Char → Option (RE × List Char)
  | 0, _, _ => none
  | fuel + 1, acc, cs =>
    match cs with
    | [] => some (acc, [])
    | ')' :: _ => some (acc, cs)
    | '|' :: _ => some (acc, cs)
    | '^' :: rest =>
      match rest with
      | q :: _ => if isQuant q then none else parseSeq fuel (acc.seq .bol) rest
      | [] => parseSeq fuel (acc.seq .bol) rest
    | '$' :: rest =>
      match rest with
      | q :: _ => if isQuant q then none else parseSeq fuel (acc.seq .eol) rest
      | [] => parseSeq fuel (acc.seq .eol) rest
    | c :: rest =>
      if isQuant c then none
      else do
        let (atom, rest2) ←
          match c, rest with
          | '(', '?' :: ':' :: r => do
            let (re, r2) ← parseAlt fuel r
            match r2 with
            | ')' :: r3 => some (re, r3)
            | _ => none
          | '(', '?' :: _ => none
          | '(', r => do
            let (re, r2) ← parseAlt fuel r
            match r2 with
            | ')' :: r3 => some (re, r3)
            | _ => none
          | '[', '^' :: r => do
            let (items, r2) ← parseClsItems (r.length + 1) r
            some (RE.cls true items, r2)
          | '[', r => do
            let (items, r2) ← parseClsItems (r.length + 1) r
            some (RE.cls false items, r2)
          | '\\', r => parseEscAtom r
          | '.', r => some (RE.anyC, r)
          | c, r => some (RE.ch c, r)
        match rest2 with
        | '*' :: r2 => parseSeq fuel (acc.seq atom.star) (dropLazy r2)
        | '+' :: r2 => parseSeq fuel (acc.seq (atom.seq atom.star)) (dropLazy r2)
        | '?' :: r2 => parseSeq fuel (acc.seq (atom.alt .eps)) (dropLazy r2)
        | _ => parseSeq fuel (acc.seq atom) rest2

end

/-- The model of `new RegExp(src, "i")`: `some` is a compiled matcher,
`none` a thrown `SyntaxError`. -/
def parseJsRegex (s : List Char) : Option RE :=
  match parseAlt (2 * s.length + 4) s with
  | some (re, []) => some re
  | _ => none

/-! ## `ExclusionMatcher` (src/tools/summary-tool/services/exclusionMatcher.ts) -/

/-- Characters the `glob-to-regexp` translation backslash-escapes. -/
def globEscSet : List Char := ['/', '$', '^', '+', '.', '(', ')', '=', '!', '|']

/-- The regex text `glob-to-regexp` emits for a slash-bounded `**`. -/
def globStarRe : List Char :=
  ['(', '(', '?', ':', '[', '^', '/', ']', '*', '(', '?', ':', '\\', '/', '|',
   '$', ')', ')', '*', ')']

/-- The regex text `glob-to-regexp` emits for a single `*`. -/
def singleStarRe : List Char := ['(', '[', '^', '/', ']', '*', ')']

/-- The character-by-character loop of `glob-to-regexp` 0.4.1 with
`extended: true` and `globstar: true`: translates a glob into JavaScript
regex source text.  `inGroup` tracks an open `{...}` group; `prev` is the
previous raw glob character (`none` at the start of the glob). -/
def globChunk : Nat → Bool → Option Char → List Char → List Char
  | _, _, _, [] => []
  | 0, _, _, _ => []  -- unreachable: each step consumes at least one character
  | fuel + 1, inGroup, prev, c :: rest =>
    if globEscSet.contains c then '\\' :: c :: globChunk fuel inGroup (some c) rest
    else if c = '?' then '.' :: globChunk fuel inGroup (some c) rest
    else if c = '{' then '(' :: globChunk fuel true (some c) rest
    else if c = '}' then ')' :: globChunk fuel false (some c) rest
    else if c = ',' then
      if inGroup then '|' :: globChunk fuel inGroup (some c) rest
      else '\\' :: ',' :: globChunk fuel inGroup (some c) rest
    else if c = '*' then
      let rest2 := rest.dropWhile (fun d => d = '*')
      let starCount := 1 + (rest.takeWhile (fun d => d = '*')).length
      let nextChar := rest2.head?
      let isGlobstar := decide (1 < starCount) &&
        (prev == some '/' || prev == none) &&
        (nextChar == some '/' || nextChar == none)
      if isGlobstar then
        -- `**` bounded by separators: the recursive wildcard, consuming
        -- the following `/` as well
        globStarRe ++ globChunk fuel inGroup (some '/') (rest2.drop 1)
      else
        singleStarRe ++ globChunk fuel inGroup (some '*') rest2
    else c :: globChunk fuel inGroup (some c) rest

/-- `globToRegExp(glob, { globstar: true, extended: true, flags: "i" })`:
the translated body is anchored because the flags contain no `g`. -/
def globToRegExpStr (glob : List Char) : List Char :=
  '^' :: (globChunk (glob.length + 1) false none glob ++ ['$'])

/-- Characters escaped by `ExclusionMatcher.escapeRegex`. -/
def escapeRegexChars : List Char :=
  ['.', '*', '+', '?', '^', '$', '{', '}', '(', ')', '|', '[', ']', '\\']

/-- `ExclusionMatcher.escapeRegex`: backslash-escape every regex
metacharacter. -/
def escapeRegex (s : List Char) : List Char :=
  s.flatMap (fun c => if escapeRegexChars.contains c then ['\\', c] else [c])

/-- `pattern.replace(/\\/g, "/")`: normalize separators. -/
def normSeps (s : List Char) : List Char :=
  s.map (fun c => if c = '\\' then '/' else c)

/-- `pattern.startsWith("/") && pattern.endsWith("/")`. -/
def slashDelim (p : List Char) : Bool :=
  p.head? == some '/' && p.getLast? == some '/'

/-- The compiled matcher of the literal fallback, as a chain of literal
characters (the shape `parseJsRegex ∘ escapeRegex` always produces). -/
def literalChainRE (s : List Char) : RE :=
  s.foldl (fun acc c => acc.seq (.ch c)) .eps

/-- `ExclusionMatcher.createRegexFromPattern`.  A slash-delimited pattern
is compiled as a regex, falling back to the fully-escaped literal on a
`SyntaxError` (the `try`/`catch` in the source); any other pattern goes
through `glob-to-regexp`, whose `new RegExp` call is *not* guarded, so a
`none` here models an exception propagating out of the constructor.
(The escaped fallback can never fail to parse; `getD` is for totality.) -/
def createRegexFromPattern (p : List Char) : Option RE :=
  if slashDelim p then
    some (match parseJsRegex ((p.drop 1).dropLast) with
      | some re => re
      | none => (parseJsRegex (escapeRegex p)).getD (literalChainRE p))
  else
    parseJsRegex (globToRegExpStr (normSeps p))

/-- The `ExclusionMatcher` constructor: compile every pattern in order;
`none` models a thrown exception. -/
def compilePatterns : List String → Option (List (String × RE))
  | [] => some []
  | p :: ps => do
    let re ← createRegexFromPattern p.data
    let rest ← compilePatterns ps
    some ((p, re) :: rest)

/-- `normalizedPath.split("/").pop() || ""`: the final path segment. -/
def lastSeg (s : List Char) : List Char :=
  (s.splitOn '/').getLastD []

/-- The loop body of `ExclusionMatcher.shouldExclude`: first pattern that
matches the full normalized path, or its final segment, or — for patterns
without a `*` — equals the path or is a `/`-terminated prefix of it. -/
def shouldExcludeGo (normPath : List Char) : List (String × RE) → Bool
  | [] => false
  | (orig, re) :: rest =>
    if reTest re normPath then true
    else if reTest re (lastSeg normPath) then true
    else if orig.data.contains '*' then shouldExcludeGo normPath rest
    else if (normSeps orig.data ++ ['/']).isPrefixOf normPath
        || normPath == normSeps orig.data then true
    else shouldExcludeGo normPath rest

/-- `ExclusionMatcher.shouldExclude`, reduced to its boolean result. -/
def shouldExclude (compiled : List (String × RE)) (itemPath : String) : Bool :=
  shouldExcludeGo (normSeps itemPath.data) compiled

/-- Build the matcher for a pattern list and test one path: `none` when
the constructor throws. -/
def excludesWith (ps : List String) (itemPath : String) : Option Bool :=
  (compilePatterns ps).map (fun m => shouldExclude m itemPath)

/-- End positions of matching a plain character chain (case-insensitively)
against `s` from position `i`: the semantics of a regex that is just a
sequence of literal characters. -/
def chainPos (s : List Char) : List Char → Nat → List Nat
  | [], i => [i]
  | c :: q, i =>
    match s[i]? with
    | some d => if ciCharEq c d then chainPos s q (i + 1) else []
    | none => []

/-- Left-accumulated sequence of literal characters, the shape the parser
builds for character chains. -/
def chSeqAcc (acc : RE) (q : List Char) : RE :=
  q.foldl (fun a c => a.seq (.ch c)) acc

/-- The compiled form of a literal glob: `^`, the escaped characters, `$`
(the shape `parseJsRegex ∘ globToRegExpStr` produces on wildcard-free
patterns). -/
def anchoredLit (q : List Char) : RE :=
  (chSeqAcc (RE.eps.seq .bol) q).seq .eol

/-- What `glob-to-regexp` emits for one character of a wildcard-free
pattern (outside any group): escaped when in the escape set or a comma,
raw otherwise. -/
def globLitEsc (c : Char) : List Char :=
  if globEscSet.contains c || c = ',' then ['\\', c] else [c]

/-- Characters of a "literal path" pattern: no wildcard or bracket/brace
metacharacter (and no raw backslash, which separator normalization
rewrites anyway). -/
def isLiteralGlobChar (c : Char) : Bool :=
  !(['*', '?', '[', ']', '{', '}', '\\'].contains c)

/-- A list whose head is not a quantifier character (so the parser's
post-atom quantifier check falls through). -/
def headNotQuant (l : List Char) : Prop :=
  ∀ d, l.head? = some d → isQuant d = false

/-- Side condition under which one emitted unit of an escape function
parses back to the literal atom `ch c`: either an escaped non-alphanumeric
character, or a raw character that is not special to the sequence
parser. -/
def litEmitOk (esc : Char → List Char) (c : Char) : Prop :=
  (esc c = ['\\', c] ∧ c.isAlphanum = false) ∨
  (esc c = [c] ∧ (['(', ')', '[', '\\', '.', '^', '$', '|'].contains c) = false
    ∧ isQuant c = false)

/-- Case-insensitive substring test: `w` occurs (up to case) somewhere in
`s`.  This is the behaviour of an unanchored, fully-escaped,
case-insensitive regex — the fallback matcher for invalid regex
patterns. -/
def ciSubstring (w s : List Char) : Bool :=
  (List.range (s.length + 1)).any
    (fun i => (w.map Char.toLower).isPrefixOf ((s.map Char.toLower).drop i))

/-! ## `FileTracker` merge mode
(`appendFileToOutput` / `trackAndWriteToSingleFile`) -/

/-- A resolved tracked file: its path relative to the workspace and its
content (as read by the streaming copy). -/
structure TrackedFile where
  relativePath : String
  content : String
  deriving DecidableEq, Repr

/-- The 60-dash separator line of `appendFileToOutput`. -/
def dashLine : String :=
  String.mk (List.replicate 60 '-')

/-- The header `appendFileToOutput` writes before a file's content. -/
def fileHeader (relativePath : String) : String :=
  dashLine ++ "\n" ++ "File: " ++ relativePath ++ "\n" ++ dashLine ++ "\n"

/-- `appendFileToOutput` on the success path: header, raw content, then
the `"\n\n"` spacing written unconditionally on the read stream's `end`
event (the source comments that the spacing should be trimmed for the
last file "at the end if needed", but no trim is ever performed). -/
def appendBlock (f : TrackedFile) : String :=
  fileHeader f.relativePath ++ f.content ++ "\n\n"

/-- The text `trackAndWriteToSingleFile` appends to the output file over
one run in which every file is read successfully: the concatenation of
the per-file blocks in resolution order. -/
def mergeOutput (files : List TrackedFile) : String :=
  String.join (files.map appendBlock)

/-- The output the spec describes: blocks separated by exactly one blank
line pair, with nothing after the final block. -/
def mergeOutputSpec (files : List TrackedFile) : String :=
  String.intercalate "\n\n" (files.map (fun f => fileHeader f.relativePath ++ f.content))

/-! ## `FileTracker` copy mode
(`trackAndCopyFiles` / `copyFile` / `compareFileContents` /
`PathUtils.getUniqueFileName`) -/

/-- A source file presented to the copy loop: its base name (the
destination name), its content, and whether the `try` block throws an
I/O error while handling it. -/
structure SrcFile where
  baseName : String
  content : String
  readFails : Bool
  deriving DecidableEq, Repr

/-- The cryptographic content hash (`getFileHash`, SHA-256 of the file
streamed in chunks).  The hash is modelled as the content itself: a
collision-free abstraction under which hash equality coincides with
content equality. -/
def fileHash (s : String) : String := s

/-- `FileTracker.compareFileContents`: sizes first (cheap reject), empty
files are identical, otherwise compare content hashes. -/
def compareFileContents (a b : String) : Bool :=
  if a.length != b.length then false
  else if a.length == 0 then true
  else fileHash a == fileHash b

/-- Index of the last `.` of a file name, the split point of
`path.extname`. -/
def lastDotIdx (cs : List Char) : Option Nat :=
  ((List.range cs.length).filter (fun i => cs.get? i = some '.')).getLast?

/-- `path.basename(f, ext)` and `path.extname(f)`: split a file name into
base and extension (a dot at position 0 marks a hidden file, not an
extension). -/
def splitExt (s : String) : String × String :=
  match lastDotIdx s.data with
  | some i =>
    if i = 0 then (s, "")
    else (String.mk (s.data.take i), String.mk (s.data.drop i))
  | none => (s, "")

/-- The `while` loop of `PathUtils.getUniqueFileName`, fuelled: try
`base_1.ext`, `base_2.ext`, … until a name is free.  Fuel exceeding the
number of taken names always suffices. -/
def uniqueGo (taken : List String) (base ext : String) :
    Nat → String → Nat → String
  | 0, current, _ => current  -- unreachable with sufficient fuel
  | fuel + 1, current, counter =>
    if taken.contains current then
      uniqueGo taken base ext fuel (base ++ "_" ++ toString counter ++ ext)
        (counter + 1)
    else current

/-- `PathUtils.getUniqueFileName` against the set of names present in the
target directory. -/
def getUniqueFileName (taken : List String) (fileName : String) : String :=
  let (base, ext) := splitExt fileName
  uniqueGo taken base ext (taken.length + 2) fileName 1

/-- State of one copy run: the target directory (name/content pairs in
creation order) and the two counters. -/
structure CopyState where
  target : List (String × String)
  copied : Nat
  skipped : Nat
  deriving DecidableEq, Repr

/-- Content of the target-directory entry with the given name, if any. -/
def lookupTgt (tgt : List (String × String)) (n : String) : Option String :=
  (tgt.find? (fun e => e.1 == n)).map (fun e => e.2)

/-- `FileTracker.copyFile`: an I/O error is caught and counted as
skipped; an existing destination with identical content is counted as
skipped without rewriting; different content gets a `_1`, `_2`, …
renamed copy; otherwise a fresh copy.  The returned flag is the
function's boolean result (`true` = handled successfully). -/
def copyFile (st : CopyState) (f : SrcFile) : CopyState × Bool :=
  if f.readFails then
    ({ st with skipped := st.skipped + 1 }, false)
  else
    match lookupTgt st.target f.baseName with
    | some existing =>
      if compareFileContents f.content existing then
        ({ st with skipped := st.skipped + 1 }, true)
      else
        let un := getUniqueFileName (st.target.map (fun e => e.1)) f.baseName
        ({ st with
            target := st.target ++ [(un, f.content)],
            copied := st.copied + 1 }, true)
    | none =>
      ({ st with
          target := st.target ++ [(f.baseName, f.content)],
          copied := st.copied + 1 }, true)

/-- The copy loop of `trackAndCopyFiles` over the expanded file list. -/
def runCopyGo (st : CopyState) : List SrcFile → CopyState
  | [] => st
  | f :: fs => runCopyGo (copyFile st f).1 fs

/-- `FileTracker.trackAndCopyFiles` reduced to its counters and target
effect: counters are reset at the start of every run. -/
def trackAndCopyFiles (target0 : List (String × String))
    (files : List SrcFile) : CopyState :=
  runCopyGo ⟨target0, 0, 0⟩ files

/-! ## Progress reporting in `trackAndCopyFiles`

The source computes
`progressPercent = ((i + 1) / allFiles.length) * 100` and reports
`increment: progressPercent / allFiles.length`.  JavaScript number
arithmetic is modelled with exact rationals (all values appearing in the
claims below are exactly representable binary floats, so the model and
the floating-point computation agree on them). -/

/-- The increment reported after file `i` (0-based) of `total`. -/
def progressIncrement (total : Nat) (i : Nat) : ℚ :=
  ((i + 1 : ℚ) / (total : ℚ) * 100) / (total : ℚ)

/-- All increments reported over one copy run of `total` files. -/
def progressIncrements (total : Nat) : List ℚ :=
  (List.range total).map (progressIncrement total)

/-! ## `StructureSummarizer`
(`generateStructure` / `buildStructureRecursive` / `generateCompactJson`)

The filesystem snapshot is modelled by `FsEntry`; directory entries are
listed in `readdir` order.  Paths are lists of segments relative to the
workspace root; the relative-path string handed to the exclusion matcher
is their `/`-join, matching `path.relative` on a platform with `/`
separators. -/

/-- A filesystem entry: a plain file, a readable directory, a directory
whose `readdir` fails (e.g. permission denied), or an entry whose `stat`
fails. -/
inductive FsEntry where
  | file
  | dir (entries : List (String × FsEntry))
  | badDir
  | statErr

/-- A node of the built structure tree (the source's `FolderNode` for
directories).  A file child is represented by `none`, the source's
`null` marker — by construction a file entry carries no children.
`path` is the node's path relative to the workspace root. -/
inductive FNode where
  | mk (name : String) (path : List String) (isIgnored : Bool)
      (children : List (String × Option FNode))

/-- Name of a structure node. -/
def FNode.name : FNode → String
  | .mk n _ _ _ => n

/-- Relative path of a structure node. -/
def FNode.path : FNode → List String
  | .mk _ p _ _ => p

/-- Ignore flag of a structure node. -/
def FNode.isIgnored : FNode → Bool
  | .mk _ _ i _ => i

/-- Children mapping of a structure node. -/
def FNode.children : FNode → List (String × Option FNode)
  | .mk _ _ _ c => c

/-- The relative-path string the walk hands to the exclusion matcher. -/
def relString (segs : List String) : String :=
  String.intercalate "/" segs

/-- `buildStructureRecursive`: list the directory, and for each entry,
skip it if `stat` fails; record a file as a `none` marker; record a
directory as a node flagged with the ignore-structure match of its
relative path, descending only when not ignored.  A `readdir` failure
(`badDir`) is caught and leaves the children empty.  Fuelled so that the
definition reduces in the kernel; fuel exceeding the tree depth never
runs out. -/
def buildChildren (compiled : List (String × RE)) :
    Nat → FsEntry → List String → List (String × Option FNode)
  | 0, _, _ => []  -- unreachable for fuel exceeding the tree depth
  | _ + 1, .file, _ => []
  | _ + 1, .badDir, _ => []
  | _ + 1, .statErr, _ => []
  | fuel + 1, .dir entries, rel =>
    entries.filterMap (fun en =>
      let relPath := rel ++ [en.1]
      let excl := shouldExclude compiled (relString relPath)
      match en.2 with
      | .file => some (en.1, none)
      | .statErr => none
      | sub =>
        some (en.1, some (FNode.mk en.1 relPath excl
          (if excl then [] else buildChildren compiled fuel sub relPath))))

/-- `StructureSummarizer.generateStructure`: fails with the NotFound
error when the workspace path does not exist, otherwise builds the root
node in a single pass. -/
def generateStructure (compiled : List (String × RE)) (workspacePath : String)
    (fs : Option FsEntry) (rootName : String) (fuel : Nat) :
    Except String FNode :=
  match fs with
  | none => .error ("Workspace path does not exist: " ++ workspacePath)
  | some e =>
    .ok (FNode.mk rootName [] false (buildChildren compiled fuel e []))

/-- Resolution of a relative segment path in the filesystem snapshot. -/
def resolveFs (e : FsEntry) : List String → Option FsEntry
  | [] => some e
  | seg :: rest =>
    match e with
    | .dir entries =>
      match entries.find? (fun en => en.1 == seg) with
      | some en => resolveFs en.2 rest
      | none => none
    | _ => none

/-- Modelled from the spec: `PathUtils.countDirectItems` is called by the
serializer but its definition is not under `src/`.  Per the spec, an
ignored directory renders as "an integer equal to their direct child
count (files + immediate subdirectories, not recursive)": the number of
direct entries of the directory at the given path (0 when the directory
cannot be read). -/
def countDirectItems (root : FsEntry) (path : List String) : Nat :=
  match resolveFs root path with
  | some (.dir entries) => entries.length
  | _ => 0

/-- The compact structure document: files are `0`, ignored directories an
integer, other directories nested objects. -/
inductive JsonVal where
  | num (n : Nat)
  | obj (fields : List (String × JsonVal))

/-- The sort comparator of `generateCompactJson`: directories (non-null)
before files, then by name (`localeCompare` modelled as code-point
order). -/
def childLE (a b : String × Option FNode) : Bool :=
  match a.2, b.2 with
  | some _, none => true
  | none, some _ => false
  | _, _ => a.1 ≤ b.1

/-- `StructureSummarizer.generateCompactJson`: sort the children, then
render files as `0`, ignored directories as their direct item count read
from the filesystem, and other directories recursively. -/
def generateCompactJson (root : FsEntry) :
    Nat → FNode → JsonVal
  | 0, _ => .obj []  -- unreachable for fuel exceeding the tree depth
  | fuel + 1, node =>
    .obj (((node.children).mergeSort childLE).map (fun en =>
      (en.1,
        match en.2 with
        | none => JsonVal.num 0
        | some child =>
          if child.isIgnored then
            JsonVal.num (countDirectItems root child.path)
          else
            generateCompactJson root fuel child)))

/-- Field list of a serialized object (a number has none). -/
def jsonFields : JsonVal → List (String × JsonVal)
  | .num _ => []
  | .obj fields => fields

/-- The structure file the summary command writes: written only when
`generateStructure` succeeds (an exception aborts `performSummary`
before `saveStructureToFile` runs). -/
def structureOutput (compiled : List (String × RE)) (workspacePath : String)
    (fs : Option FsEntry) (rootName : String) (fuel : Nat) : Option JsonVal :=
  match generateStructure compiled workspacePath fs rootName fuel, fs with
  | .ok node, some e => some (generateCompactJson e (fuel + 1) node)
  | _, _ => none

/-- Well-formedness of a filesystem snapshot: `readdir` lists each name
at most once (fuelled; `fsWF (sizeOf e) e` certifies the whole tree). -/
def fsWF : Nat → FsEntry → Bool
  | _, .file => true
  | _, .badDir => true
  | _, .statErr => true
  | 0, .dir _ => false
  | fuel + 1, .dir entries =>
    decide (entries.map (fun en => en.1)).Nodup &&
      entries.all (fun en => fsWF fuel en.2)

/-- The structural invariant of built trees: every directory node marked
ignored has an empty children mapping (fuelled checker; it holds at
every fuel). -/
def invOk : Nat → FNode → Bool
  | 0, _ => true
  | fuel + 1, node =>
    node.children.all (fun en =>
      match en.2 with
      | none => true
      | some c => (!(c.isIgnored) || c.children.isEmpty) && invOk fuel c)

/-- Parallel walk of filesystem and exclusion decisions checking, for
every directory the walk marks ignored, that the serializer's integer
(`countDirectItems` of the directory's relative path, resolved from the
root) equals the direct child count of that very directory as the walk
saw it — and checking nothing below ignored directories, which the walk
never enters. -/
def ignoredCountsOk (root : FsEntry) (compiled : List (String × RE)) :
    Nat → FsEntry → List String → Bool
  | 0, _, _ => true
  | fuel + 1, .dir entries, rel =>
    entries.all (fun en =>
      let relPath := rel ++ [en.1]
      match en.2 with
      | .dir subEntries =>
        if shouldExclude compiled (relString relPath) then
          countDirectItems root relPath == subEntries.length
        else ignoredCountsOk root compiled fuel en.2 relPath
      | .badDir =>
        if shouldExclude compiled (relString relPath) then
          countDirectItems root relPath == 0
        else true
      | _ => true)
  | _ + 1, _, _ => true

/-! ## Helper lemmas -/

/-- `copyFile` increments exactly one of the two counters. -/
theorem copyFile_counters (st : CopyState) (f : SrcFile) :
    (copyFile st f).1.copied + (copyFile st f).1.skipped =
      st.copied + st.skipped + 1 := by
  unfold copyFile
  cases hf : f.readFails with
  | true => simp [hf]; omega
  | false =>
    cases h : lookupTgt st.target f.baseName with
    | none => simp [hf, h]; omega
    | some existing =>
      cases hc : compareFileContents f.content existing with
      | true => simp [hf, h, hc]; omega
      | false => simp [hf, h, hc]; omega

/-- The copy loop adds the number of processed files to the counter sum. -/
theorem runCopyGo_counters (fs : List SrcFile) :
    ∀ st : CopyState,
      (runCopyGo st fs).copied + (runCopyGo st fs).skipped =
        st.copied + st.skipped + fs.length := by
  induction fs with
  | nil => intro st; simp [runCopyGo]
  | cons f fs ih =>
    intro st
    have h := copyFile_counters st f
    simp only [runCopyGo, List.length_cons]
    rw [ih]
    omega

/-- A node with no children satisfies the invariant checker at any
fuel. -/
theorem invOk_nil (fuelI : Nat) (n : String) (p : List String) (b : Bool) :
    invOk fuelI (FNode.mk n p b []) = true := by
  cases fuelI <;> simp [invOk, FNode.children]

/-- Every tree the walk builds satisfies the ignored-directories-have-no-
children invariant, at every checker fuel. -/
theorem buildChildren_invOk (fuelI : Nat) :
    ∀ (compiled : List (String × RE)) (fuel : Nat) (e : FsEntry)
      (rel : List String) (n : String) (p : List String) (b : Bool),
      invOk fuelI (FNode.mk n p b (buildChildren compiled fuel e rel)) = true := by
  induction fuelI with
  | zero => intros; rfl
  | succ fuelI ih =>
    intro compiled fuel e rel n p b
    cases fuel with
    | zero => exact invOk_nil _ _ _ _
    | succ fuel =>
      cases e with
      | file => exact invOk_nil _ _ _ _
      | badDir => exact invOk_nil _ _ _ _
      | statErr => exact invOk_nil _ _ _ _
      | dir entries =>
        simp only [invOk, FNode.children, buildChildren, List.all_eq_true]
        intro x hx
        rw [List.mem_filterMap] at hx
        obtain ⟨en, _, hfx⟩ := hx
        obtain ⟨nm, sub⟩ := en
        cases sub with
        | file =>
          simp only at hfx
          cases hfx
          rfl
        | statErr => simp at hfx
        | dir subEntries =>
          simp only at hfx
          cases hfx
          cases hexcl : shouldExclude compiled (relString (rel ++ [nm])) <;>
            simp [hexcl, FNode.isIgnored, FNode.children, invOk_nil, ih]
        | badDir =>
          simp only at hfx
          cases hfx
          cases hexcl : shouldExclude compiled (relString (rel ++ [nm])) <;>
            simp [hexcl, FNode.isIgnored, FNode.children, invOk_nil, ih]

/-- Under the collision-free hash abstraction, a file always compares
equal to itself. -/
theorem compareFileContents_self (a : String) :
    compareFileContents a a = true := by
  simp [compareFileContents, fileHash]

/-- Looking a name up across an extended target directory. -/
theorem lookupTgt_append (a b : List (String × String)) (n : String) :
    lookupTgt (a ++ b) n =
      (lookupTgt a n).elim (lookupTgt b n) (fun v => some v) := by
  unfold lookupTgt
  rw [List.find?_append]
  cases a.find? (fun e => e.1 == n) <;> simp [Option.orElse]

/-- A run over fresh files (no base name present in the target, no two
files sharing a base name, no I/O errors) copies every file under its
own base name. -/
theorem runCopyGo_fresh (fs : List SrcFile) :
    ∀ (t0 : List (String × String)) (c s : Nat),
      (fs.map SrcFile.baseName).Nodup →
      (∀ f ∈ fs, f.readFails = false) →
      (∀ f ∈ fs, lookupTgt t0 f.baseName = none) →
      runCopyGo ⟨t0, c, s⟩ fs =
        ⟨t0 ++ fs.map (fun f => (f.baseName, f.content)), c + fs.length, s⟩ := by
  induction fs with
  | nil => intro t0 c s _ _ _; simp [runCopyGo]
  | cons f fs ih =>
    intro t0 c s hnd hio hfresh
    rw [List.map_cons, List.nodup_cons] at hnd
    obtain ⟨hnotin, hndtail⟩ := hnd
    have hf : f.readFails = false := hio f (by simp)
    have hl : lookupTgt t0 f.baseName = none := hfresh f (by simp)
    have hfreshtail : ∀ g ∈ fs,
        lookupTgt (t0 ++ [(f.baseName, f.content)]) g.baseName = none := by
      intro g hg
      rw [lookupTgt_append, hfresh g (List.mem_cons.mpr (Or.inr hg))]
      have hne : (f.baseName == g.baseName) = false := by
        rw [beq_eq_false_iff_ne]
        intro heq
        exact hnotin (heq ▸ List.mem_map.mpr ⟨g, hg, rfl⟩)
      simp [lookupTgt, List.find?, hne]
    simp only [runCopyGo, copyFile, hf, Bool.false_eq_true, if_false, hl]
    rw [ih (t0 ++ [(f.baseName, f.content)]) (c + 1) s hndtail
      (fun g hg => hio g (List.mem_cons.mpr (Or.inr hg))) hfreshtail]
    simp [CopyState.mk.injEq, List.append_assoc]
    omega

/-- Base-name lookup in the directory produced by a fresh run finds each
file's own content, provided base names are distinct. -/
theorem lookupTgt_map_self (fs : List SrcFile) (f : SrcFile)
    (hnd : (fs.map SrcFile.baseName).Nodup) (hf : f ∈ fs) :
    lookupTgt (fs.map (fun g => (g.baseName, g.content))) f.baseName =
      some f.content := by
  induction fs with
  | nil => cases hf
  | cons g fs ih =>
    rw [List.map_cons, List.nodup_cons] at hnd
    obtain ⟨hnotin, hndtail⟩ := hnd
    rw [List.mem_cons] at hf
    rcases hf with rfl | hf
    · simp [lookupTgt, List.find?]
    · have hne : (g.baseName == f.baseName) = false := by
        rw [beq_eq_false_iff_ne]
        intro heq
        exact hnotin (heq ▸ List.mem_map.mpr ⟨f, hf, rfl⟩)
      have := ih hndtail hf
      simpa [lookupTgt, List.find?, hne] using this

/-- A run in which every file already sits in the target with identical
content skips everything and leaves the target untouched. -/
theorem runCopyGo_skips (fs : List SrcFile) :
    ∀ st : CopyState,
      (∀ f ∈ fs, f.readFails = false ∧
        lookupTgt st.target f.baseName = some f.content) →
      runCopyGo st fs = ⟨st.target, st.copied, st.skipped + fs.length⟩ := by
  induction fs with
  | nil => intro st _; simp [runCopyGo]
  | cons f fs ih =>
    intro st h
    obtain ⟨hio, hl⟩ := h f (by simp)
    simp only [runCopyGo, copyFile, hio, Bool.false_eq_true, if_false, hl,
      compareFileContents_self, if_true]
    rw [ih ⟨st.target, st.copied, st.skipped + 1⟩
      (fun g hg => h g (List.mem_cons.mpr (Or.inr hg)))]
    simp [CopyState.mk.injEq]
    omega

/-- A character chain either fails or lands exactly `q.length` past its
start. -/
theorem chainPos_cases (s : List Char) (q : List Char) :
    ∀ i, chainPos s q i = [] ∨ chainPos s q i = [i + q.length] := by
  induction q with
  | nil => intro i; right; simp [chainPos]
  | cons c q ih =>
    intro i
    cases hget : s[i]? with
    | none => left; simp [chainPos, hget]
    | some d =>
      cases hc : ciCharEq c d with
      | false => left; simp [chainPos, hget, hc]
      | true =>
        rcases ih (i + 1) with h | h
        · left; simp [chainPos, hget, hc, h]
        · right
          simp only [chainPos, hget, hc, if_true, h, List.cons.injEq,
            List.length_cons, and_true]
          omega

theorem chainPos_ne_nil_iff (s : List Char) (q : List Char) :
    ∀ i, chainPos s q i ≠ [] ↔
      (q.map Char.toLower).isPrefixOf ((s.drop i).map Char.toLower) = true := by
  induction q with
  | nil => intro i; simp [chainPos, List.isPrefixOf]
  | cons c q ih =>
    intro i
    cases hget : s[i]? with
    | none =>
      have hlen : s.length ≤ i := by
        simpa using List.getElem?_eq_none_iff.mp hget
      simp [chainPos, hget, List.drop_eq_nil_of_le hlen, List.isPrefixOf]
    | some d =>
      have hlt : i < s.length := by
        by_contra hge
        rw [List.getElem?_eq_none_iff.mpr (by omega)] at hget
        cases hget
      have hdrop : s.drop i = d :: s.drop (i + 1) := by
        rw [List.drop_eq_getElem_cons hlt]
        have hsi : s[i] = d := by
          have h2 := List.getElem?_eq_getElem hlt
          rw [hget] at h2
          exact (Option.some_inj.mp h2).symm
        rw [hsi]
      rw [hdrop]
      cases hc : ciCharEq c d with
      | true =>
        have hble : (c.toLower == d.toLower) = true := hc
        simp [chainPos, hget, hc, List.isPrefixOf, hble, ih (i + 1)]
      | false =>
        have hble : (c.toLower == d.toLower) = false := hc
        simp [chainPos, hget, hc, List.isPrefixOf, hble]

theorem flatMap_singleton_id (l : List Nat) :
    l.flatMap (fun j => [j]) = l := by
  induction l with
  | nil => rfl
  | cons x l ih => simp [List.flatMap_cons, ih]

theorem positions_chSeqAcc (s : List Char) (q : List Char) :
    ∀ (acc : RE) (i : Nat),
      positions s (chSeqAcc acc q) i =
        (positions s acc i).flatMap (chainPos s q) := by
  induction q with
  | nil =>
    intro acc i
    simp [chSeqAcc, chainPos, flatMap_singleton_id]
  | cons c q ih =>
    intro acc i
    have h1 : chSeqAcc acc (c :: q) = chSeqAcc (acc.seq (.ch c)) q := rfl
    rw [h1, ih]
    simp only [positions, List.flatMap_assoc]
    congr 1
    funext j
    cases hget : s[j]? with
    | none => simp [chainPos, hget]
    | some d =>
      cases hc : ciCharEq c d with
      | true => simp [chainPos, hget, hc]
      | false => simp [chainPos, hget, hc]

theorem reTest_anchoredLit (q s : List Char) :
    reTest (anchoredLit q) s = ((s.map Char.toLower) == (q.map Char.toLower)) := by
  have heps : positions s (RE.eps.seq .bol) = fun i => if i = 0 then [0] else [] := by
    funext i
    by_cases hi : i = 0 <;> simp [positions, hi]
  have hpos : ∀ i, positions s (anchoredLit q) i =
      if i = 0 then
        (chainPos s q 0).flatMap (fun j => if j = s.length then [j] else [])
      else [] := by
    intro i
    show (positions s (chSeqAcc (RE.eps.seq .bol) q) i).flatMap
        (fun j => positions s .eol j) = _
    rw [positions_chSeqAcc, heps]
    by_cases hi : i = 0
    · subst hi
      simp [positions]
    · simp [hi]
  have hLHS : reTest (anchoredLit q) s =
      !((chainPos s q 0).flatMap
        (fun j => if j = s.length then [j] else [])).isEmpty := by
    cases hb : ((chainPos s q 0).flatMap
        (fun j => if j = s.length then [j] else [])).isEmpty with
    | false =>
      simp only [Bool.not_false]
      rw [reTest, List.any_eq_true]
      exact ⟨0, by simp, by simp [hpos 0, hb]⟩
    | true =>
      simp only [Bool.not_true]
      rw [reTest, List.any_eq_false]
      intro i _
      rw [hpos i]
      by_cases hi : i = 0 <;> simp [hi, hb]
  rw [hLHS]
  rcases chainPos_cases s q 0 with h | h
  · rw [h]
    simp only [List.flatMap_nil, List.isEmpty_nil, Bool.not_true]
    symm
    rw [beq_eq_false_iff_ne]
    intro heq
    have hpre : (q.map Char.toLower).isPrefixOf
        ((s.drop 0).map Char.toLower) = true := by
      rw [List.drop_zero, ← heq]
      exact List.isPrefixOf_iff_prefix.mpr (List.prefix_refl _)
    exact ((chainPos_ne_nil_iff s q 0).mpr hpre) h
  · rw [h]
    have hch : chainPos s q 0 ≠ [] := by rw [h]; simp
    have hpre := (chainPos_ne_nil_iff s q 0).mp hch
    rw [List.drop_zero] at hpre
    by_cases hlen : q.length = s.length
    · simp only [Nat.zero_add, List.flatMap_cons, List.flatMap_nil, hlen,
        if_true, List.append_nil, List.isEmpty_cons, Bool.not_false]
      symm
      rw [beq_iff_eq]
      exact (List.isPrefixOf_iff_prefix.mp hpre).eq_of_length
        (by simp [hlen]) |>.symm
    · simp only [Nat.zero_add, List.flatMap_cons, List.flatMap_nil, hlen,
        if_false, List.append_nil, List.isEmpty_nil, Bool.not_true]
      symm
      rw [beq_eq_false_iff_ne]
      intro heq
      have : s.length = q.length := by
        have := congrArg List.length heq
        simpa using this
      omega

theorem reTest_literalChain (w s : List Char) :
    reTest (literalChainRE w) s = ciSubstring w s := by
  have hpos : ∀ i, positions s (literalChainRE w) i = chainPos s w i := by
    intro i
    show positions s (chSeqAcc .eps w) i = _
    rw [positions_chSeqAcc]
    simp [positions]
  have hpt : ∀ i, (!(positions s (literalChainRE w) i).isEmpty) =
      (w.map Char.toLower).isPrefixOf ((s.map Char.toLower).drop i) := by
    intro i
    rw [hpos i, ← List.map_drop]
    by_cases hne : chainPos s w i = []
    · have hpre : (w.map Char.toLower).isPrefixOf
          ((s.drop i).map Char.toLower) = false := by
        cases hp : (w.map Char.toLower).isPrefixOf
            ((s.drop i).map Char.toLower) with
        | true => exact absurd hne ((chainPos_ne_nil_iff s w i).mpr hp)
        | false => rfl
      rw [hne, hpre]
      rfl
    · have hpre := (chainPos_ne_nil_iff s w i).mp hne
      rw [hpre]
      have hie : (chainPos s w i).isEmpty = false := by
        rw [← Bool.not_eq_true, List.isEmpty_iff]
        exact hne
      rw [hie]
      rfl
  rw [reTest, ciSubstring]
  exact congrArg (List.any (List.range (s.length + 1))) (funext hpt)

theorem parseEscAtom_nonalnum (c : Char) (rest : List Char)
    (h : c.isAlphanum = false) :
    parseEscAtom (c :: rest) = some (.ch c, rest) := by
  have hne : ∀ x ∈ ['d', 'D', 'w', 'W', 's', 'S', 'n', 't', 'r', 'f', 'v', '0'],
      c ≠ x := by
    intro x hx heq
    subst heq
    fin_cases hx <;> exact absurd h (by decide)
  simp only [parseEscAtom]
  rw [if_neg (hne 'd' (by simp)), if_neg (hne 'D' (by simp)),
    if_neg (hne 'w' (by simp)), if_neg (hne 'W' (by simp)),
    if_neg (hne 's' (by simp)), if_neg (hne 'S' (by simp)),
    if_neg (hne 'n' (by simp)), if_neg (hne 't' (by simp)),
    if_neg (hne 'r' (by simp)), if_neg (hne 'f' (by simp)),
    if_neg (hne 'v' (by simp)), if_neg (hne '0' (by simp)),
    if_neg (by simp [h])]

theorem parseSeq_cons_plain (fuel : Nat) (acc : RE) (c : Char)
    (rest : List Char)
    (hspec : (['(', ')', '[', '\\', '.', '^', '$', '|'].contains c) = false)
    (hq : isQuant c = false)
    (hrest : headNotQuant rest) :
    parseSeq (fuel + 1) acc (c :: rest) =
      parseSeq fuel (acc.seq (.ch c)) rest := by
  obtain ⟨hc1, hc2, hc3, hc4, hc5, hc6, hc7, hc8⟩ :
      c ≠ '(' ∧ c ≠ ')' ∧ c ≠ '[' ∧ c ≠ '\\' ∧ c ≠ '.' ∧ c ≠ '^' ∧ c ≠ '$'
        ∧ c ≠ '|' := by
    simpa using hspec
  conv_lhs => rw [parseSeq.eq_def]
  split
  · omega
  case h_2 fuel2 acc2 cs2 fuel3 heq =>
    obtain rfl : fuel3 = fuel := by omega
    split
    · rename_i h; cases h
    · rename_i h; injection h with h1 _; exact absurd h1 hc2
    · rename_i h; injection h with h1 _; exact absurd h1 hc8
    · rename_i h; injection h with h1 _; exact absurd h1 hc6
    · rename_i h; injection h with h1 _; exact absurd h1 hc7
    case h_6 c2 rest2 h =>
      injection h with h1 h2
      subst h1
      subst h2
      rw [if_neg (by simp [hq])]
      split
      · exact absurd rfl hc1
      · exact absurd rfl hc1
      · exact absurd rfl hc1
      · exact absurd rfl hc3
      · exact absurd rfl hc3
      · exact absurd rfl hc4
      · exact absurd rfl hc5
      · simp only [Option.bind_eq_bind, Option.some_bind]
        split
        · exact absurd (hrest '*' rfl) (by decide)
        · exact absurd (hrest '+' rfl) (by decide)
        · exact absurd (hrest '?' rfl) (by decide)
        · rfl




theorem parseSeq_cons_esc (fuel : Nat) (acc : RE) (c : Char)
    (rest : List Char) (hna : c.isAlphanum = false)
    (hrest : headNotQuant rest) :
    parseSeq (fuel + 1) acc ('\\' :: c :: rest) =
      parseSeq fuel (acc.seq (.ch c)) rest := by
  conv_lhs => rw [parseSeq.eq_def]
  split
  · omega
  case h_2 fuel2 acc2 cs2 fuel3 heq =>
    obtain rfl : fuel3 = fuel := by omega
    split
    · rename_i h; cases h
    · rename_i h; injection h with h1 _; exact absurd h1 (by decide)
    · rename_i h; injection h with h1 _; exact absurd h1 (by decide)
    · rename_i h; injection h with h1 _; exact absurd h1 (by decide)
    · rename_i h; injection h with h1 _; exact absurd h1 (by decide)
    case h_6 c2 rest2 h =>
      injection h with h1 h2
      subst h1
      subst h2
      rw [if_neg (by decide)]
      split
      all_goals first
        | (rename_i hbad _ _; exact absurd hbad (by decide))
        | (rename_i hbad _; exact absurd hbad (by decide))
        | (rename_i hbad; exact absurd hbad (by decide))
        | skip
      · simp only [Option.bind_eq_bind]
        rw [parseEscAtom_nonalnum c rest hna]
        simp only [Option.some_bind]
        split
        · exact absurd (hrest '*' rfl) (by decide)
        · exact absurd (hrest '+' rfl) (by decide)
        · exact absurd (hrest '?' rfl) (by decide)
        · rfl
      case h_8 =>
        rename_i hbs _ _ _ _
        exact absurd rfl hbs

theorem parseSeq_cons_bol (fuel : Nat) (acc : RE) (rest : List Char)
    (hrest : headNotQuant rest) :
    parseSeq (fuel + 1) acc ('^' :: rest) =
      parseSeq fuel (acc.seq .bol) rest := by
  conv_lhs => rw [parseSeq.eq_def]
  split
  · omega
  case h_2 fuel2 acc2 cs2 fuel3 heq =>
    obtain rfl : fuel3 = fuel := by omega
    split
    · rename_i h; cases h
    · rename_i h; injection h with h1 _; exact absurd h1 (by decide)
    · rename_i h; injection h with h1 _; exact absurd h1 (by decide)
    case h_4 rest2 h =>
      injection h with h1 h2
      subst h2
      split
      · rename_i q tail
        rw [if_neg (by simp [hrest q rfl])]
      · rfl
    · rename_i h; injection h with h1 _; exact absurd h1 (by decide)
    · rename_i k3 _ h
      injection h with h1 _
      exact absurd h1.symm k3

theorem parseSeq_cons_eol (fuel : Nat) (acc : RE) (rest : List Char)
    (hrest : headNotQuant rest) :
    parseSeq (fuel + 1) acc ('$' :: rest) =
      parseSeq fuel (acc.seq .eol) rest := by
  conv_lhs => rw [parseSeq.eq_def]
  split
  · omega
  case h_2 fuel2 acc2 cs2 fuel3 heq =>
    obtain rfl : fuel3 = fuel := by omega
    split
    · rename_i h; cases h
    · rename_i h; injection h with h1 _; exact absurd h1 (by decide)
    · rename_i h; injection h with h1 _; exact absurd h1 (by decide)
    · rename_i h; injection h with h1 _; exact absurd h1 (by decide)
    case h_5 rest2 h =>
      injection h with h1 h2
      subst h2
      split
      · rename_i q tail
        rw [if_neg (by simp [hrest q rfl])]
      · rfl
    · rename_i k4 h
      injection h with h1 _
      exact absurd h1.symm k4

theorem parseSeq_nil (fuel : Nat) (acc : RE) :
    parseSeq (fuel + 1) acc [] = some (acc, []) := rfl

theorem parseSeq_chain (esc : Char → List Char) (q : List Char) :
    ∀ (fuel : Nat) (acc : RE) (t : List Char),
      (∀ c ∈ q, litEmitOk esc c) →
      headNotQuant t →
      parseSeq (fuel + q.length) acc (q.flatMap esc ++ t) =
        parseSeq fuel (chSeqAcc acc q) t := by
  induction q with
  | nil => intro fuel acc t _ _; simp [chSeqAcc]
  | cons c q ih =>
    intro fuel acc t hok hT
    have hcok := hok c (by simp)
    have hqok : ∀ d ∈ q, litEmitOk esc d := fun d hd => hok d (by simp [hd])
    have hhead : headNotQuant (q.flatMap esc ++ t) := by
      intro d hd
      cases q with
      | nil => exact hT d (by simpa using hd)
      | cons c2 q2 =>
        rcases hqok c2 (by simp) with ⟨he, _⟩ | ⟨he, _, hq2⟩
        · rw [List.flatMap_cons, he] at hd
          simp only [List.cons_append, List.head?_cons, Option.some_inj] at hd
          subst hd
          decide
        · rw [List.flatMap_cons, he] at hd
          simp only [List.cons_append, List.head?_cons, Option.some_inj] at hd
          subst hd
          exact hq2
    have harith : fuel + (c :: q).length = (fuel + q.length) + 1 := by
      simp [List.length_cons]
      omega
    rcases hcok with ⟨he, hna⟩ | ⟨he, hnspec, hnq⟩
    · rw [List.flatMap_cons, he, harith]
      show parseSeq ((fuel + q.length) + 1) acc
          ('\\' :: c :: (q.flatMap esc ++ t)) = _
      rw [parseSeq_cons_esc _ _ _ _ hna hhead]
      rw [ih fuel (acc.seq (.ch c)) t hqok hT]
      rfl
    · rw [List.flatMap_cons, he, harith]
      show parseSeq ((fuel + q.length) + 1) acc
          (c :: (q.flatMap esc ++ t)) = _
      rw [parseSeq_cons_plain _ _ _ _ hnspec hnq hhead]
      rw [ih fuel (acc.seq (.ch c)) t hqok hT]
      rfl

theorem parseAlt_of_seq (fuel : Nat) (cs : List Char) (re : RE)
    (h : parseSeq fuel .eps cs = some (re, [])) :
    parseAlt (fuel + 1) cs = some (re, []) := by
  conv_lhs => rw [parseAlt.eq_def]
  split
  · omega
  case h_2 fuel2 cs2 fuel3 heq =>
    obtain rfl : fuel3 = fuel := by omega
    rw [h]
    rfl

theorem emit_headNotQuant (esc : Char → List Char) (q t : List Char)
    (hok : ∀ c ∈ q, litEmitOk esc c) (ht : headNotQuant t) :
    headNotQuant (q.flatMap esc ++ t) := by
  intro d hd
  cases q with
  | nil => exact ht d (by simpa using hd)
  | cons c2 q2 =>
    rcases hok c2 (by simp) with ⟨he, _⟩ | ⟨he, _, hq2⟩
    · rw [List.flatMap_cons, he] at hd
      simp only [List.cons_append, List.head?_cons, Option.some_inj] at hd
      subst hd
      decide
    · rw [List.flatMap_cons, he] at hd
      simp only [List.cons_append, List.head?_cons, Option.some_inj] at hd
      subst hd
      exact hq2

theorem emit_length_ge (esc : Char → List Char)
    (hesc : ∀ c, 1 ≤ (esc c).length) (q : List Char) :
    q.length ≤ (q.flatMap esc).length := by
  induction q with
  | nil => simp
  | cons c q ih =>
    rw [List.flatMap_cons, List.length_append, List.length_cons]
    have := hesc c
    omega

theorem litEmitOk_escapeRegex (c : Char) :
    litEmitOk (fun c => if escapeRegexChars.contains c then ['\\', c] else [c])
      c := by
  by_cases hc : c ∈ escapeRegexChars
  · left
    refine ⟨by simp [hc], ?_⟩
    fin_cases hc <;> decide
  · have hmem : c ∉ escapeRegexChars := hc
    right
    refine ⟨by simp [hc], ?_, ?_⟩
    · by_contra hcon
      rw [Bool.not_eq_false] at hcon
      have hin : c ∈ ['(', ')', '[', '\\', '.', '^', '$', '|'] := by
        simpa using hcon
      fin_cases hin <;> exact hmem (by decide)
    · by_contra hcon
      rw [Bool.not_eq_false] at hcon
      have hin : (c = '*' ∨ c = '+') ∨ c = '?' := by
        simpa [isQuant] using hcon
      rcases hin with (rfl | rfl) | rfl <;> exact hmem (by decide)

theorem escapeRegex_eq_flatMap (w : List Char) :
    escapeRegex w =
      w.flatMap
        (fun c => if escapeRegexChars.contains c then ['\\', c] else [c]) := rfl

theorem parseJsRegex_escapeRegex (w : List Char) :
    parseJsRegex (escapeRegex w) = some (literalChainRE w) := by
  have hone : ∀ c, 1 ≤ ((fun c =>
      if escapeRegexChars.contains c then ['\\', c] else [c]) c).length := by
    intro c
    by_cases hc : c ∈ escapeRegexChars <;> simp [hc]
  have hlen : w.length ≤ (escapeRegex w).length := by
    rw [escapeRegex_eq_flatMap]
    exact emit_length_ge _ hone w
  have hseq : parseSeq (2 * (escapeRegex w).length + 3) .eps (escapeRegex w)
      = some (chSeqAcc .eps w, []) := by
    set L := (escapeRegex w).length with hL
    have hfe : 2 * L + 3 = (2 * L + 3 - w.length) + w.length := by omega
    rw [hfe]
    conv_lhs =>
      rw [escapeRegex_eq_flatMap,
        ← List.append_nil (w.flatMap (fun c =>
          if escapeRegexChars.contains c then ['\\', c] else [c]))]
    rw [parseSeq_chain _ w _ _ _ (fun c _ => litEmitOk_escapeRegex c)
      (fun d hd => by cases hd)]
    obtain ⟨f, hf⟩ : ∃ f, 2 * L + 3 - w.length = f + 1 :=
      ⟨2 * L + 2 - w.length, by omega⟩
    rw [hf, parseSeq_nil]
  show (match parseAlt (2 * (escapeRegex w).length + 4) (escapeRegex w) with
    | some (re, []) => some re
    | _ => none) = _
  rw [show 2 * (escapeRegex w).length + 4 =
    (2 * (escapeRegex w).length + 3) + 1 from rfl]
  rw [parseAlt_of_seq _ _ _ hseq]
  rfl

theorem isLiteralGlobChar_ne (c : Char) (h : isLiteralGlobChar c = true) :
    c ≠ '*' ∧ c ≠ '?' ∧ c ≠ '[' ∧ c ≠ ']' ∧ c ≠ '{' ∧ c ≠ '}' ∧ c ≠ '\\' := by
  simpa [isLiteralGlobChar] using h

theorem globChunk_literal (q : List Char) :
    ∀ (fuel : Nat) (prev : Option Char),
      q.all isLiteralGlobChar = true → q.length ≤ fuel →
      globChunk fuel false prev q = q.flatMap globLitEsc := by
  induction q with
  | nil => intro fuel prev _ _; cases fuel <;> simp [globChunk]
  | cons c q ih =>
    intro fuel prev hall hlen
    rw [List.all_cons, Bool.and_eq_true] at hall
    obtain ⟨hc, hq⟩ := hall
    obtain ⟨h1, h2, _, _, h5, h6, _⟩ := isLiteralGlobChar_ne c hc
    cases fuel with
    | zero => simp at hlen
    | succ f =>
      have hlen2 : q.length ≤ f := by
        simp [List.length_cons] at hlen
        omega
      by_cases hesc : globEscSet.contains c = true
      · simp only [globChunk, hesc, if_true]
        rw [ih f (some c) hq hlen2]
        have hmem : c ∈ globEscSet := by simpa using hesc
        have : globLitEsc c = ['\\', c] := by simp [globLitEsc, hmem]
        rw [List.flatMap_cons, this]
        rfl
      · by_cases hcomma : c = ','
        · subst hcomma
          simp only [globChunk, hesc, Bool.false_eq_true, if_false,
            if_neg h2, if_neg h5, if_neg h6, if_pos rfl]
          rw [ih f (some ',') hq hlen2]
          have : globLitEsc ',' = ['\\', ','] := by simp [globLitEsc]
          rw [List.flatMap_cons, this]
          rfl
        · simp only [globChunk, hesc, Bool.false_eq_true, if_false,
            if_neg h2, if_neg h5, if_neg h6, if_neg hcomma, if_neg h1]
          rw [ih f (some c) hq hlen2]
          have hmem : c ∉ globEscSet := by
            intro hin
            exact hesc (by simpa using hin)
          have : globLitEsc c = [c] := by simp [globLitEsc, hmem, hcomma]
          rw [List.flatMap_cons, this]
          rfl

theorem litEmitOk_globLitEsc (c : Char) (h : isLiteralGlobChar c = true) :
    litEmitOk globLitEsc c := by
  obtain ⟨h1, h2, h3, _, h5, h6, h7⟩ := isLiteralGlobChar_ne c h
  by_cases hesc : (globEscSet.contains c || decide (c = ',')) = true
  · left
    refine ⟨by simp only [globLitEsc]; rw [if_pos hesc], ?_⟩
    rw [Bool.or_eq_true] at hesc
    rcases hesc with hesc | hesc
    · have hmem : c ∈ globEscSet := by simpa using hesc
      fin_cases hmem <;> decide
    · have : c = ',' := by simpa using hesc
      subst this
      decide
  · rw [Bool.or_eq_true, not_or] at hesc
    obtain ⟨hesc1, hesc2⟩ := hesc
    have hmem : c ∉ globEscSet := by
      intro hin
      exact hesc1 (by simpa using hin)
    have hcomma : c ≠ ',' := by
      intro hin
      exact hesc2 (by simp [hin])
    right
    refine ⟨by simp [globLitEsc, hmem, hcomma], ?_, ?_⟩
    · by_contra hcon
      rw [Bool.not_eq_false] at hcon
      have hin : c ∈ ['(', ')', '[', '\\', '.', '^', '$', '|'] := by
        simpa using hcon
      fin_cases hin
      · exact hmem (by decide)
      · exact hmem (by decide)
      · exact h3 rfl
      · exact h7 rfl
      · exact hmem (by decide)
      · exact hmem (by decide)
      · exact hmem (by decide)
      · exact hmem (by decide)
    · by_contra hcon
      rw [Bool.not_eq_false] at hcon
      have hin : (c = '*' ∨ c = '+') ∨ c = '?' := by
        simpa [isQuant] using hcon
      rcases hin with (rfl | rfl) | rfl
      · exact h1 rfl
      · exact hmem (by decide)
      · exact h2 rfl

theorem parseJsRegex_glob_literal (q : List Char)
    (h : q.all isLiteralGlobChar = true) :
    parseJsRegex (globToRegExpStr q) = some (anchoredLit q) := by
  have hchunk : globChunk (q.length + 1) false none q = q.flatMap globLitEsc :=
    globChunk_literal q (q.length + 1) none h (by omega)
  have hok : ∀ c ∈ q, litEmitOk globLitEsc c := by
    intro c hc
    exact litEmitOk_globLitEsc c (by
      rw [List.all_eq_true] at h
      simpa using h c hc)
  have hone : ∀ c, 1 ≤ (globLitEsc c).length := by
    intro c
    unfold globLitEsc
    split <;> simp
  have hlen : q.length ≤ (q.flatMap globLitEsc).length := emit_length_ge _ hone q
  have hstr : globToRegExpStr q = '^' :: (q.flatMap globLitEsc ++ ['$']) := by
    rw [globToRegExpStr, hchunk]
  rw [hstr]
  show (match parseAlt
      (2 * ('^' :: (q.flatMap globLitEsc ++ ['$'])).length + 4)
      ('^' :: (q.flatMap globLitEsc ++ ['$'])) with
    | some (re, []) => some re
    | _ => none) = _
  set N := ('^' :: (q.flatMap globLitEsc ++ ['$'])).length with hN
  have hNge : q.length + 2 ≤ N := by
    rw [hN]
    simp only [List.length_cons, List.length_append]
    omega
  have hT : headNotQuant ['$'] := by
    intro d hd
    simp only [List.head?_cons, Option.some_inj] at hd
    subst hd
    decide
  have hhead : headNotQuant (q.flatMap globLitEsc ++ ['$']) :=
    emit_headNotQuant _ _ _ hok hT
  have hseq : parseSeq (2 * N + 3) .eps
      ('^' :: (q.flatMap globLitEsc ++ ['$'])) = some (anchoredLit q, []) := by
    rw [show 2 * N + 3 = (2 * N + 2) + 1 from rfl]
    rw [parseSeq_cons_bol _ _ _ hhead]
    have hfe : 2 * N + 2 = (2 * N + 2 - q.length) + q.length := by omega
    rw [hfe, parseSeq_chain _ q _ _ _ hok hT]
    obtain ⟨f, hf⟩ : ∃ f, 2 * N + 2 - q.length = (f + 1) + 1 :=
      ⟨2 * N - q.length, by omega⟩
    rw [hf]
    rw [parseSeq_cons_eol _ _ _ (fun d hd => by cases hd)]
    rw [parseSeq_nil]
    rfl
  rw [show 2 * N + 4 = (2 * N + 3) + 1 from rfl]
  rw [parseAlt_of_seq _ _ _ hseq]

theorem compilePatterns_append (xs ys : List String) :
    compilePatterns (xs ++ ys) =
      (compilePatterns xs).bind (fun a =>
        (compilePatterns ys).map (fun b => a ++ b)) := by
  induction xs with
  | nil =>
    simp only [List.nil_append, compilePatterns, Option.some_bind]
    cases compilePatterns ys <;> simp
  | cons p xs ih =>
    simp only [List.cons_append, compilePatterns, List.append_eq]
    cases hre : createRegexFromPattern p.data with
    | none => simp
    | some re =>
      rw [ih]
      cases compilePatterns xs with
      | none => simp
      | some cx =>
        cases compilePatterns ys with
        | none => simp
        | some cy => simp

/-- C4 (amended): a *slash-delimited* pattern whose interior is an
invalid regular expression never propagates an error: the `try`/`catch`
degrades that one pattern to the fully-escaped, case-insensitive literal
matcher (which matches exactly when the raw pattern text occurs in the
candidate, ignoring case), and every other pattern in the list compiles
exactly as it would alone.  (The original claim's "for every pattern
list" is false: a *glob* pattern producing an invalid regex — e.g. `[` —
throws out of the unguarded `new RegExp` inside `glob-to-regexp`; see
the counterexample.) -/
theorem claim4_amended (xs ys : List String) (p : String)
    (hsd : slashDelim p.data = true)
    (hbad : parseJsRegex ((p.data.drop 1).dropLast) = none) :
    createRegexFromPattern p.data = some (literalChainRE p.data) ∧
    (∀ s : List Char, reTest (literalChainRE p.data) s = ciSubstring p.data s) ∧
    compilePatterns (xs ++ p :: ys) =
      (compilePatterns xs).bind (fun cx =>
        (compilePatterns ys).map (fun cy =>
          cx ++ (p, literalChainRE p.data) :: cy)) := by
  have h1 : createRegexFromPattern p.data = some (literalChainRE p.data) := by
    unfold createRegexFromPattern
    rw [if_pos (by simp [hsd]), hbad, parseJsRegex_escapeRegex]
    rfl
  refine ⟨h1, fun s => reTest_literalChain p.data s, ?_⟩
  rw [compilePatterns_append]
  simp only [compilePatterns, h1, Option.some_bind]
  cases compilePatterns xs with
  | none => simp
  | some cx =>
    cases compilePatterns ys with
    | none => simp
    | some cy => simp

/-- C3 (amended): for a literal path pattern (no wildcard metacharacter,
not slash-delimited), `shouldExclude` excludes a candidate exactly when
the forward-slash-normalized path *or its final segment* equals the
literal *case-insensitively* (the compiled anchored glob regex applied
to both), or the path equals the literal or starts with `literal + "/"`
case-sensitively.  The original claim omitted the first two
(regex-driven) disjuncts; they are what exclude `src/build` and `BUILD`
for pattern `build` (see the counterexample). -/
theorem claim3_amended (p path : String)
    (hlit : p.data.all isLiteralGlobChar = true)
    (hsd : slashDelim p.data = false) :
    excludesWith [p] path = some (
      ((normSeps path.data).map Char.toLower == p.data.map Char.toLower) ||
      ((lastSeg (normSeps path.data)).map Char.toLower
        == p.data.map Char.toLower) ||
      ((p.data ++ ['/']).isPrefixOf (normSeps path.data) ||
        (normSeps path.data == p.data))) := by
  have hall := List.all_eq_true.mp hlit
  have hns : normSeps p.data = p.data := by
    unfold normSeps
    rw [show p.data.map (fun c => if c = '\\' then '/' else c)
        = p.data.map id from List.map_congr_left ?_, List.map_id]
    intro x hx
    have h7 := (isLiteralGlobChar_ne x (by simpa using hall x hx)).2.2.2.2.2.2
    simp [h7]
  have hcomp : createRegexFromPattern p.data = some (anchoredLit p.data) := by
    unfold createRegexFromPattern
    rw [if_neg (by simp [hsd]), hns]
    exact parseJsRegex_glob_literal p.data hlit
  have hstar : p.data.contains '*' = false := by
    by_contra hcon
    rw [Bool.not_eq_false] at hcon
    have hmem : '*' ∈ p.data := by simpa using hcon
    have := hall '*' hmem
    simp [isLiteralGlobChar] at this
  unfold excludesWith
  rw [show compilePatterns [p] = some [(p, anchoredLit p.data)] from by
    simp [compilePatterns, hcomp]]
  simp only [Option.map_some']
  unfold shouldExclude shouldExcludeGo
  rw [reTest_anchoredLit, reTest_anchoredLit, hstar, hns]
  simp only [Bool.false_eq_true, if_false]
  cases h1 : ((normSeps path.data).map Char.toLower == p.data.map Char.toLower)
    <;> cases h2 : ((lastSeg (normSeps path.data)).map Char.toLower
      == p.data.map Char.toLower)
    <;> cases h3 : ((p.data ++ ['/']).isPrefixOf (normSeps path.data)
      || (normSeps path.data == p.data))
    <;> simp [h1, h2, h3, shouldExcludeGo]

theorem find?_key_unique {β : Type} (nm : String) (x : β) :
    ∀ (l : List (String × β)),
      (l.map (fun en => en.1)).Nodup → (nm, x) ∈ l →
      l.find? (fun en => en.1 == nm) = some (nm, x) := by
  intro l
  induction l with
  | nil => intro _ h; cases h
  | cons e l ih =>
    intro hnd hmem
    obtain ⟨k, y⟩ := e
    rw [List.map_cons, List.nodup_cons] at hnd
    obtain ⟨hnotin, hndt⟩ := hnd
    rw [List.mem_cons] at hmem
    by_cases hk : k = nm
    · subst hk
      rcases hmem with heq | hmem
      · injection heq with h1 h2
        subst h2
        simp [List.find?]
      · exact absurd (List.mem_map.mpr ⟨(k, x), hmem, rfl⟩) hnotin
    · have hne : (k == nm) = false := by
        rw [beq_eq_false_iff_ne]
        exact hk
      rcases hmem with heq | hmem
      · injection heq with h1 _
        exact absurd h1.symm hk
      · rw [List.find?_cons]
        simp only [hne]
        exact ih hndt hmem

theorem lookup_map_keyed {β γ : Type} (g : String × β → γ) (nm : String)
    (x : β) :
    ∀ (l : List (String × β)),
      (l.map (fun en => en.1)).Nodup → (nm, x) ∈ l →
      List.lookup nm (l.map (fun en => (en.1, g en))) = some (g (nm, x)) := by
  intro l
  induction l with
  | nil => intro _ h; cases h
  | cons e l ih =>
    intro hnd hmem
    obtain ⟨k, y⟩ := e
    rw [List.map_cons, List.nodup_cons] at hnd
    obtain ⟨hnotin, hndt⟩ := hnd
    rw [List.mem_cons] at hmem
    rw [List.map_cons, List.lookup_cons]
    by_cases hk : nm = k
    · subst hk
      simp only [beq_self_eq_true]
      rcases hmem with heq | hmem
      · injection heq with _ h2
        subst h2
        rfl
      · exact absurd (List.mem_map.mpr ⟨(nm, x), hmem, rfl⟩) hnotin
    · have hne : (nm == k) = false := by
        rw [beq_eq_false_iff_ne]
        exact hk
      simp only [hne]
      rcases hmem with heq | hmem
      · injection heq with h1 _
        exact absurd h1 hk
      · exact ih hndt hmem

theorem lookup_render (root : FsEntry) (node : FNode) (fuelJ : Nat)
    (nm : String) (c : FNode)
    (hnd : (node.children.map (fun en => en.1)).Nodup)
    (hmem : (nm, some c) ∈ node.children)
    (hign : c.isIgnored = true) :
    List.lookup nm (jsonFields (generateCompactJson root (fuelJ + 1) node))
      = some (.num (countDirectItems root c.path)) := by
  have hperm : List.Perm (node.children.mergeSort childLE) node.children :=
    List.mergeSort_perm node.children childLE
  have hnd2 : ((node.children.mergeSort childLE).map (fun en => en.1)).Nodup :=
    (List.Perm.nodup_iff (hperm.map (fun en => en.1))).mpr hnd
  have hmem2 : (nm, some c) ∈ node.children.mergeSort childLE :=
    (hperm.mem_iff).mpr hmem
  have h := lookup_map_keyed
    (fun en =>
      match en.2 with
      | none => JsonVal.num 0
      | some child =>
        if child.isIgnored then
          JsonVal.num (countDirectItems root child.path)
        else
          generateCompactJson root fuelJ child)
    nm (some c) (node.children.mergeSort childLE) hnd2 hmem2
  rw [show jsonFields (generateCompactJson root (fuelJ + 1) node) =
    (node.children.mergeSort childLE).map (fun en =>
      (en.1,
        match en.2 with
        | none => JsonVal.num 0
        | some child =>
          if child.isIgnored then
            JsonVal.num (countDirectItems root child.path)
          else
            generateCompactJson root fuelJ child)) from rfl]
  rw [h]
  simp [hign]

theorem resolveFs_append (l2 : List String) :
    ∀ (rel : List String) (root : FsEntry),
      resolveFs root (rel ++ l2) =
        (resolveFs root rel).bind (fun e => resolveFs e l2) := by
  intro rel
  induction rel with
  | nil => intro root; simp [resolveFs]
  | cons seg rest ih =>
    intro root
    cases root with
    | dir entries =>
      rw [List.cons_append]
      show (match entries.find? (fun en => en.1 == seg) with
        | some en => resolveFs en.2 (rest ++ l2)
        | none => none) = _
      cases h : entries.find? (fun en => en.1 == seg) with
      | none => simp [resolveFs, h]
      | some en => simp [resolveFs, h, ih]
    | file => simp [resolveFs]
    | badDir => simp [resolveFs]
    | statErr => simp [resolveFs]

theorem resolveFs_child (root : FsEntry) (rel : List String)
    (entries : List (String × FsEntry)) (nm : String) (sub : FsEntry)
    (hres : resolveFs root rel = some (.dir entries))
    (hnd : (entries.map (fun en => en.1)).Nodup)
    (hmem : (nm, sub) ∈ entries) :
    resolveFs root (rel ++ [nm]) = some sub := by
  rw [resolveFs_append [nm] rel root, hres, Option.some_bind]
  show (match entries.find? (fun en => en.1 == nm) with
    | some en => resolveFs en.2 []
    | none => none) = some sub
  rw [find?_key_unique nm sub entries hnd hmem]
  rfl

theorem fsWF_dir (n : Nat) (entries : List (String × FsEntry))
    (h : fsWF n (.dir entries) = true) :
    ∃ m, n = m + 1 ∧ (entries.map (fun en => en.1)).Nodup ∧
      ∀ en ∈ entries, fsWF m en.2 = true := by
  cases n with
  | zero => cases h
  | succ m =>
    refine ⟨m, rfl, ?_, ?_⟩
    · have := (Bool.and_eq_true _ _).mp h
      exact of_decide_eq_true this.1
    · have := (Bool.and_eq_true _ _).mp h
      exact fun en hen => (List.all_eq_true.mp this.2) en hen

theorem ignoredCountsOk_of_resolve (root : FsEntry)
    (compiled : List (String × RE)) :
    ∀ (fuel : Nat) (n : Nat) (e : FsEntry) (rel : List String),
      resolveFs root rel = some e → fsWF n e = true →
      ignoredCountsOk root compiled fuel e rel = true := by
  intro fuel
  induction fuel with
  | zero => intros; rfl
  | succ fuel ih =>
    intro n e rel hres hwf
    cases e with
    | file => rfl
    | badDir => rfl
    | statErr => rfl
    | dir entries =>
      obtain ⟨m, rfl, hnd, hsub⟩ := fsWF_dir n entries hwf
      show entries.all _ = true
      rw [List.all_eq_true]
      intro en hen
      obtain ⟨nm, sub⟩ := en
      have hchild : resolveFs root (rel ++ [nm]) = some sub :=
        resolveFs_child root rel entries nm sub hres hnd hen
      cases sub with
      | file => rfl
      | statErr => rfl
      | badDir =>
        show (if shouldExclude compiled (relString (rel ++ [nm])) then
          countDirectItems root (rel ++ [nm]) == 0 else true) = true
        by_cases hexcl : shouldExclude compiled (relString (rel ++ [nm])) = true
        · rw [if_pos hexcl]
          unfold countDirectItems
          rw [hchild]
          rfl
        · rw [if_neg hexcl]
      | dir subEntries =>
        show (if shouldExclude compiled (relString (rel ++ [nm])) then
          countDirectItems root (rel ++ [nm]) == subEntries.length
          else ignoredCountsOk root compiled fuel (.dir subEntries)
            (rel ++ [nm])) = true
        by_cases hexcl : shouldExclude compiled (relString (rel ++ [nm])) = true
        · rw [if_pos hexcl]
          unfold countDirectItems
          rw [hchild]
          simp
        · rw [if_neg hexcl]
          exact ih m (.dir subEntries) (rel ++ [nm]) hchild
            (hsub (nm, .dir subEntries) hen)

/-! ## Claims -/

set_option maxRecDepth 100000 in
/-- C1: the compiled exclusion matcher decides the spec's worked
examples: `/^test.*\.js$/` excludes `test_foo.js` and `testing.js` but
not `foo_test.js`; `*.log` excludes `app.log`, and excludes
`logs/app.log` through its final segment (the full-path test fails, the
final-segment test succeeds); literal `build` excludes `build` and
`build/output.bin` but not `rebuild/x`. -/
theorem claim1_pattern_worked_examples :
    excludesWith ["/^test.*\\.js$/"] "test_foo.js" = some true ∧
    excludesWith ["/^test.*\\.js$/"] "testing.js" = some true ∧
    excludesWith ["/^test.*\\.js$/"] "foo_test.js" = some false ∧
    excludesWith ["*.log"] "app.log" = some true ∧
    excludesWith ["*.log"] "logs/app.log" = some true ∧
    (createRegexFromPattern "*.log".data).map
      (fun re => reTest re "logs/app.log".data) = some false ∧
    (createRegexFromPattern "*.log".data).map
      (fun re => reTest re (lastSeg "logs/app.log".data)) = some true ∧
    excludesWith ["build"] "build" = some true ∧
    excludesWith ["build"] "build/output.bin" = some true ∧
    excludesWith ["build"] "rebuild/x" = some false := by
  decide

set_option maxRecDepth 400000 in
/-- C2 (code bug): on the spec's three-file example the merge output is
the spec's block format *plus a trailing blank-line pair*:
`appendFileToOutput` writes `"\n\n"` after every file including the
last (its own comment says the trailing spacing should be trimmed "at
the end if needed", but `trackAndWriteToSingleFile` never trims). -/
theorem claim2_merge_trailing_blank_lines :
    mergeOutput [⟨"a.txt", "A"⟩, ⟨"b.txt", "B"⟩, ⟨"c.txt", "C"⟩] =
      mergeOutputSpec [⟨"a.txt", "A"⟩, ⟨"b.txt", "B"⟩, ⟨"c.txt", "C"⟩]
        ++ "\n\n" ∧
    "\n\n".data.isSuffixOf
      (mergeOutput [⟨"a.txt", "A"⟩, ⟨"b.txt", "B"⟩, ⟨"c.txt", "C"⟩]).data = true ∧
    "\n\n".data.isSuffixOf
      (mergeOutputSpec [⟨"a.txt", "A"⟩, ⟨"b.txt", "B"⟩, ⟨"c.txt", "C"⟩]).data
      = false := by
  refine ⟨by decide, by decide, by decide⟩

/-- C7: a missing root makes `generateStructure` fail with the NotFound
error and no structure file is produced; for every existing root —
including any tree containing unreadable (`badDir`) directories — the
walk absorbs per-directory read failures and succeeds. -/
theorem claim7_notfound_and_absorption
    (compiled : List (String × RE)) (ws rootName : String) (fuel : Nat) :
    generateStructure compiled ws none rootName fuel =
      .error ("Workspace path does not exist: " ++ ws) ∧
    structureOutput compiled ws none rootName fuel = none ∧
    (∀ e : FsEntry, ∃ t, generateStructure compiled ws (some e) rootName fuel
      = .ok t) ∧
    generateStructure compiled ws
        (some (.dir [("locked", .badDir), ("a.txt", .file)])) rootName 2 =
      .ok (FNode.mk rootName [] false
        [("locked", some (FNode.mk "locked" ["locked"]
            (shouldExclude compiled "locked") [])),
         ("a.txt", none)]) := by
  refine ⟨rfl, rfl, fun e => ⟨_, rfl⟩, ?_⟩
  have hrel : relString ["locked"] = "locked" := rfl
  cases hexcl : shouldExclude compiled "locked" <;>
    simp [generateStructure, buildChildren, hrel, hexcl]

/-- C8: every tree returned by `generateStructure` satisfies the
structural invariant: file entries are leaf markers (the `none` marker
carries no children by construction of the data model), and every
directory node marked ignored has an empty children mapping, because the
walk never descends into an ignored directory.  The checker holds at
every fuel. -/
theorem claim8_tree_invariant
    (compiled : List (String × RE)) (ws rootName : String)
    (fuel fuelI : Nat) (e : FsEntry) (t : FNode)
    (h : generateStructure compiled ws (some e) rootName fuel = .ok t) :
    invOk fuelI t = true := by
  have : t = FNode.mk rootName [] false (buildChildren compiled fuel e []) := by
    simpa [generateStructure] using h.symm
  rw [this]
  exact buildChildren_invOk fuelI compiled fuel e [] rootName [] false

/-- C8 witness. -/
theorem claim8_tree_invariant_witness :
    invOk 5 (FNode.mk "root" [] false
      (buildChildren [] 5 (.dir [("a", .dir [("b", .file)])]) [])) = true :=
  claim8_tree_invariant [] "ws" "root" 5 5 (.dir [("a", .dir [("b", .file)])])
    _ rfl

/-- C9 (code bug): the increment reported after file `i` of `n` is
`((i+1)/n·100)/n`, not the spec's uniform `100/n`: for two files the
reported increments are 25 and 50, summing to 75 rather than 100. -/
theorem claim9_progress_increment_bug :
    progressIncrements 2 = [25, 50] ∧
    (progressIncrements 2).sum = 75 ∧
    progressIncrement 2 0 ≠ 100 / 2 ∧
    (75 : ℚ) ≠ 100 := by
  refine ⟨?_, ?_, ?_, by norm_num⟩
  · show [progressIncrement 2 0, progressIncrement 2 1] = [25, 50]
    norm_num [progressIncrement]
  · show progressIncrement 2 0 + (progressIncrement 2 1 + 0) = 75
    norm_num [progressIncrement]
  · norm_num [progressIncrement]

/-- C10: after every run of `trackAndCopyFiles`, whatever the initial
target contents, the counters partition the file list: each file
increments exactly one of `copiedFiles` (fresh or renamed write) and
`skippedFiles` (identical duplicate, or caught I/O error). -/
theorem claim10_counters_partition
    (target0 : List (String × String)) (files : List SrcFile) :
    (trackAndCopyFiles target0 files).copied +
      (trackAndCopyFiles target0 files).skipped = files.length := by
  simpa [trackAndCopyFiles] using runCopyGo_counters files ⟨target0, 0, 0⟩

set_option maxRecDepth 100000 in
/-- C5 counterexample: with two source files both named `a.txt` but with
different contents, the first run produces `a.txt` and the renamed
`a_1.txt`; on the second run the second file is again compared only
against `a.txt`, found different, and copied once more (as `a_2.txt`) —
one new copy, not zero, and the target grows from two entries to
three. -/
theorem claim5_counterexample :
    (trackAndCopyFiles
        (trackAndCopyFiles [] [⟨"a.txt", "X", false⟩, ⟨"a.txt", "Y", false⟩]).target
        [⟨"a.txt", "X", false⟩, ⟨"a.txt", "Y", false⟩]).copied = 1 ∧
    (trackAndCopyFiles [] [⟨"a.txt", "X", false⟩, ⟨"a.txt", "Y", false⟩]).target
      = [("a.txt", "X"), ("a_1.txt", "Y")] ∧
    (trackAndCopyFiles
        (trackAndCopyFiles [] [⟨"a.txt", "X", false⟩, ⟨"a.txt", "Y", false⟩]).target
        [⟨"a.txt", "X", false⟩, ⟨"a.txt", "Y", false⟩]).target
      = [("a.txt", "X"), ("a_1.txt", "Y"), ("a_2.txt", "Y")] := by
  refine ⟨by decide, by decide, by decide⟩

/-- C5 (amended): when the expanded files carry pairwise-distinct base
names and no I/O error occurs, a second copy run against the target
populated by the first run detects every file as identical (size check
then content hash), counts it as skipped, and rewrites nothing: zero new
copies, and the target directory is unchanged. -/
theorem claim5_amended (files : List SrcFile)
    (hnd : (files.map SrcFile.baseName).Nodup)
    (hio : ∀ f ∈ files, f.readFails = false) :
    (trackAndCopyFiles (trackAndCopyFiles [] files).target files).copied = 0 ∧
    (trackAndCopyFiles (trackAndCopyFiles [] files).target files).skipped
      = files.length ∧
    (trackAndCopyFiles (trackAndCopyFiles [] files).target files).target
      = (trackAndCopyFiles [] files).target := by
  have h1 : trackAndCopyFiles [] files =
      ⟨files.map (fun f => (f.baseName, f.content)), files.length, 0⟩ := by
    have := runCopyGo_fresh files [] 0 0 hnd hio (fun f _ => rfl)
    simpa [trackAndCopyFiles] using this
  have h2 : trackAndCopyFiles (trackAndCopyFiles [] files).target files =
      ⟨(trackAndCopyFiles [] files).target, 0, files.length⟩ := by
    have := runCopyGo_skips files
      ⟨(trackAndCopyFiles [] files).target, 0, 0⟩
      (fun f hf => ⟨hio f hf, by
        rw [h1]
        exact lookupTgt_map_self files f hnd hf⟩)
    simpa [trackAndCopyFiles] using this
  rw [h2]
  exact ⟨rfl, rfl, rfl⟩

/-- C5 witness: the amended idempotence at a concrete two-file list with
distinct base names. -/
theorem claim5_amended_witness :
    (trackAndCopyFiles
        (trackAndCopyFiles [] [⟨"a.txt", "A", false⟩, ⟨"b.txt", "B", false⟩]).target
        [⟨"a.txt", "A", false⟩, ⟨"b.txt", "B", false⟩]).copied = 0 ∧
    (trackAndCopyFiles
        (trackAndCopyFiles [] [⟨"a.txt", "A", false⟩, ⟨"b.txt", "B", false⟩]).target
        [⟨"a.txt", "A", false⟩, ⟨"b.txt", "B", false⟩]).skipped = 2 ∧
    (trackAndCopyFiles
        (trackAndCopyFiles [] [⟨"a.txt", "A", false⟩, ⟨"b.txt", "B", false⟩]).target
        [⟨"a.txt", "A", false⟩, ⟨"b.txt", "B", false⟩]).target
      = (trackAndCopyFiles [] [⟨"a.txt", "A", false⟩, ⟨"b.txt", "B", false⟩]).target :=
  claim5_amended [⟨"a.txt", "A", false⟩, ⟨"b.txt", "B", false⟩]
    (by decide) (by decide)

set_option maxRecDepth 100000 in
/-- C3 counterexample: for the literal pattern `build`, the path
`src/build` is excluded although it neither equals `build` nor starts
with `build/` (its final segment matches the compiled regex), and the
path `BUILD` is excluded although the comparison the claim describes is
case-sensitive. -/
theorem claim3_counterexample :
    excludesWith ["build"] "src/build" = some true ∧
    ("src/build" == "build") = false ∧
    ("build/".data.isPrefixOf "src/build".data) = false ∧
    excludesWith ["build"] "BUILD" = some true ∧
    ("BUILD" == "build") = false := by
  refine ⟨by decide, by decide, by decide, by decide, by decide⟩

set_option maxRecDepth 100000 in
/-- C3 witness: the amended characterization instantiated at pattern
`build` and path `src/build`. -/
theorem claim3_amended_witness :
    excludesWith ["build"] "src/build" = some (
      (((normSeps "src/build".data).map Char.toLower)
        == "build".data.map Char.toLower) ||
      (((lastSeg (normSeps "src/build".data)).map Char.toLower)
        == "build".data.map Char.toLower) ||
      ((("build".data ++ ['/']).isPrefixOf (normSeps "src/build".data)) ||
        (normSeps "src/build".data == "build".data))) :=
  claim3_amended "build" "src/build" (by decide) (by decide)

set_option maxRecDepth 100000 in
/-- C4 counterexample: compiling the one-pattern list `["["]` throws —
`glob-to-regexp` translates the glob `[` to the regex source `^[$`,
whose unguarded `new RegExp` raises a `SyntaxError` that propagates to
the `ExclusionMatcher` constructor's caller, contradicting "never
propagates an error to the caller" as stated for every pattern list. -/
theorem claim4_counterexample :
    compilePatterns ["["] = none ∧ slashDelim "[".data = false := by
  refine ⟨by decide, by decide⟩

set_option maxRecDepth 100000 in
/-- C4 witness: the amended degradation at the concrete pattern `/[/`
(invalid interior `[`) in the middle of a list, with the case-insensitive
substring semantics of the fallback checked on a concrete path. -/
theorem claim4_amended_witness :
    createRegexFromPattern "/[/".data = some (literalChainRE "/[/".data) ∧
    reTest (literalChainRE "/[/".data) "A/[/b".data
      = ciSubstring "/[/".data "A/[/b".data ∧
    compilePatterns (["*.log"] ++ "/[/" :: ["build"]) =
      (compilePatterns ["*.log"]).bind (fun cx =>
        (compilePatterns ["build"]).map (fun cy =>
          cx ++ ("/[/", literalChainRE "/[/".data) :: cy)) := by
  have h := claim4_amended ["*.log"] ["build"] "/[/" (by decide) (by decide)
  exact ⟨h.1, h.2.1 "A/[/b".data, h.2.2⟩

/-- C6: in the serialized structure, every directory matched by an
ignore-structure pattern renders as an integer equal to the count of its
immediate children, and no descendant of it appears anywhere in the
output.  First conjunct: along the whole walk, for every directory the
matcher marks ignored, the count the serializer reads back from the
filesystem at that directory's relative path (`countDirectItems`)
equals that directory's direct entry count (files plus immediate
subdirectories — and `0` for an unreadable directory); nothing below an
ignored directory is visited.  Second conjunct: the serializer maps an
ignored directory child to exactly that plain integer — a `JsonVal.num`,
which contains no nested fields, so no descendant is rendered (and by
the C8 invariant the walk builds no descendants either). -/
theorem claim6_ignored_render (compiled : List (String × RE))
    (fs : FsEntry) (n : Nat) (hwf : fsWF n fs = true) :
    (∀ fuel, ignoredCountsOk fs compiled fuel fs [] = true) ∧
    (∀ (node : FNode) (fuelJ : Nat) (nm : String) (c : FNode),
      (node.children.map (fun en => en.1)).Nodup →
      (nm, some c) ∈ node.children →
      c.isIgnored = true →
      List.lookup nm (jsonFields (generateCompactJson fs (fuelJ + 1) node))
        = some (.num (countDirectItems fs c.path))) := by
  refine ⟨fun fuel =>
    ignoredCountsOk_of_resolve fs compiled fuel n fs [] rfl hwf,
    fun node fuelJ nm c hnd hmem hign =>
      lookup_render fs node fuelJ nm c hnd hmem hign⟩

set_option maxRecDepth 1000000 in
/-- C6 witness: a workspace with `node_modules` (two entries) ignored;
the walk prunes it, the count check holds, and the serialized object
maps `node_modules` to the integer `2`. -/
theorem claim6_ignored_render_witness :
    ignoredCountsOk
        (.dir [("node_modules", .dir [("a", .file), ("b", .file)]),
          ("src", .file)])
        ((compilePatterns ["node_modules"]).getD []) 3
        (.dir [("node_modules", .dir [("a", .file), ("b", .file)]),
          ("src", .file)]) [] = true ∧
    List.lookup "node_modules"
      (jsonFields (generateCompactJson
        (.dir [("node_modules", .dir [("a", .file), ("b", .file)]),
          ("src", .file)]) (1 + 1)
        (FNode.mk "root" [] false
          (buildChildren ((compilePatterns ["node_modules"]).getD []) 2
            (.dir [("node_modules", .dir [("a", .file), ("b", .file)]),
              ("src", .file)]) []))))
      = some (.num 2) := by
  have h := claim6_ignored_render ((compilePatterns ["node_modules"]).getD [])
    (.dir [("node_modules", .dir [("a", .file), ("b", .file)]),
      ("src", .file)]) 2 (by decide)
  refine ⟨h.1 3, ?_⟩
  have hlist : buildChildren ((compilePatterns ["node_modules"]).getD []) 2
      (.dir [("node_modules", .dir [("a", .file), ("b", .file)]),
        ("src", .file)]) [] =
      [("node_modules",
        some (FNode.mk "node_modules" ["node_modules"] true [])),
       ("src", none)] := rfl
  have h2 := h.2 (FNode.mk "root" [] false
      (buildChildren ((compilePatterns ["node_modules"]).getD []) 2
        (.dir [("node_modules", .dir [("a", .file), ("b", .file)]),
          ("src", .file)]) [])) 1
    "node_modules" (FNode.mk "node_modules" ["node_modules"] true [])
    (by decide)
    (by
      show _ ∈ buildChildren ((compilePatterns ["node_modules"]).getD []) 2
        (.dir [("node_modules", .dir [("a", .file), ("b", .file)]),
          ("src", .file)]) []
      rw [hlist]
      exact List.mem_cons_self _ _)
    rfl
  exact h2

end BuildAiContext
